import Mathlib

/-!
Shallow embedding of `src/services/data_service.py` from the
My-Portfolio-Tracker repository: the `YahooFinanceDataService` class with
its union-calendar alignment, forward fill, coarse price cache,
integrity validator and cache clearing.

Dates are modelled as natural numbers, the per-date payload of a price
row as an optional integer (`none` is pandas NaN / a missing row), and
the external collaborators (`yf.download`, `pd.read_excel`) as explicit
function or value parameters returning `Except`: a raised exception is
an `Except.error`.  The service's mutable `_price_cache` field becomes
explicit state of type `Option Frames` threaded through each method, and
each method additionally returns the list of symbols for which the
fetcher was invoked (the call trace), so that cache/idempotence claims
about fetcher call counts can be stated.
-/

namespace PortfolioTracker

abbrev Date := Nat
abbrev Value := Int
abbrev Err := String

/-- Column structure of a pandas DataFrame: either a flat column index or
a two-level MultiIndex (as produced by `yf.download`, e.g.
`("Close", "AAPL")`). -/
inductive ColIndex where
  | flat (names : List String)
  | multi (names : List (String × String))
deriving DecidableEq, Repr

/-- Number of columns, `len(df.columns)`. -/
def ColIndex.length : ColIndex → Nat
  | .flat names => names.length
  | .multi names => names.length

/-- The check `isinstance(df.columns, pd.MultiIndex)`. -/
def ColIndex.isMulti : ColIndex → Bool
  | .flat _ => false
  | .multi _ => true

/-- A pandas DataFrame as used by the service: a column index plus a
date-indexed sequence of rows.  A row's payload is `Option Value`:
`some v` is a row of observed data, `none` an all-NaN row (as produced
by `reindex` for dates absent from the native index). -/
structure DataFrame where
  cols : ColIndex
  data : List (Date × Option Value)
deriving DecidableEq, Repr

/-- The check `df.empty`: true when a frame has no rows or no columns. -/
def DataFrame.emptyb (df : DataFrame) : Bool :=
  df.data.isEmpty || df.cols.length == 0

/-- The dict `frames : Dict[str, pd.DataFrame]` of the service, in
insertion order (Python 3.7+ dict semantics). -/
abbrev Frames := List (String × DataFrame)

/-- Python dict assignment `m[k] = v`: replaces the value in place when
the key is present (keeping its position), appends otherwise. -/
def dictInsert (m : Frames) (k : String) (v : DataFrame) : Frames :=
  match m with
  | [] => [(k, v)]
  | (k', v') :: rest =>
      if k' = k then (k, v) :: rest else (k', v') :: dictInsert rest k v

/-- Python dict lookup used by the validator: `m[k]` guarded by
`k in m`, as an option. -/
def dictFind? (m : Frames) (k : String) : Option DataFrame :=
  match m.find? (fun p => p.1 == k) with
  | some p => some p.2
  | none => none

/-- Lines 83-86 of `data_service.py`: `if isinstance(df.columns,
pd.MultiIndex): df.columns = df.columns.droplevel(1)` — a two-level
column index is flattened to its first level; flat columns pass
through unchanged. -/
def collapse (df : DataFrame) : DataFrame :=
  match df.cols with
  | .multi names => { df with cols := .flat (names.map Prod.fst) }
  | .flat _ => df

/-- Row lookup underlying `df.reindex`: the payload stored at date `d`
of the native frame, `none` when `d` is absent from the native index
(the slot becomes an all-NaN row). -/
def dlookup (rows : List (Date × Option Value)) (d : Date) : Option Value :=
  (rows.find? (fun r => r.1 == d)).bind Prod.snd

/-- Line 102: `frames[symbol].reindex(complete_dates)` — the frame is
re-indexed onto the complete calendar, dates missing from the native
index becoming missing slots. -/
def DataFrame.reindex (df : DataFrame) (dates : List Date) : DataFrame :=
  { cols := df.cols, data := dates.map (fun d => (d, dlookup df.data d)) }

/-- The scan underlying `df.ffill()`: each missing slot takes the value
of the nearest preceding non-missing slot (carried in `last`). -/
def ffillAux (last : Option Value) :
    List (Date × Option Value) → List (Date × Option Value)
  | [] => []
  | (d, v) :: rest =>
      match v with
      | some x => (d, some x) :: ffillAux (some x) rest
      | none => (d, last) :: ffillAux last rest

/-- Line 104: `frames[symbol].ffill()`. -/
def DataFrame.ffill (df : DataFrame) : DataFrame :=
  { cols := df.cols, data := ffillAux none df.data }

/-- Lines 93-95: the multiset of all dates appearing across all fetched
frames (`all_dates.update(df.index)` over `frames.values()`). -/
def allDates (frames : Frames) : List Date :=
  frames.flatMap (fun p => p.2.data.map Prod.fst)

/-- Line 98: `complete_dates = sorted(all_dates)` where `all_dates` is a
set: the sorted, deduplicated union of every date across all frames. -/
def completeDates (frames : Frames) : List Date :=
  List.insertionSort (· ≤ ·) (allDates frames).dedup

/-- Lines 90-106 of `get_price_history`: the alignment step.  When the
dict of frames is non-empty, every frame is re-indexed onto the union
calendar and forward-filled; an empty dict is returned unchanged
(the `if frames:` guard). -/
def alignFrames (frames : Frames) : Frames :=
  if frames = [] then frames
  else
    let cd := completeDates frames
    frames.map (fun p => (p.1, (p.2.reindex cd).ffill))

/-- Lines 74-88: the download loop.  Fetches each symbol in order via
the collaborator `fetch` (absorbing the start/"tomorrow" window of
`yf.download`), collapses MultiIndex columns, and stores the frame in
the dict; a raised fetch error aborts the loop and propagates.  Returns
the outcome together with the trace of symbols actually fetched. -/
def fetchLoop (fetch : String → Except Err DataFrame) :
    List String → Frames → Except Err Frames × List String
  | [], acc => (.ok acc, [])
  | s :: rest, acc =>
      match fetch s with
      | .error e => (.error e, [s])
      | .ok df =>
          let out := fetchLoop fetch rest (dictInsert acc s (collapse df))
          (out.1, s :: out.2)

/-- Lines 65-113, `get_price_history`: returns the cached panel when
`_price_cache is not None` (no fetch), otherwise fetches every symbol,
aligns, stores the panel in the cache and returns it; any error leaves
the cache untouched and propagates.  Result: (returned panel or error,
new cache state, fetcher call trace). -/
def get_price_history (fetch : String → Except Err DataFrame)
    (st : Option Frames) (symbols : List String) :
    Except Err Frames × Option Frames × List String :=
  match st with
  | some p => (.ok p, some p, [])
  | none =>
      match fetchLoop fetch symbols [] with
      | (.error e, calls) => (.error e, none, calls)
      | (.ok frames, calls) =>
          let panel := alignFrames frames
          (.ok panel, some panel, calls)

/-- Lines 140-143, `clear_cache`: `self._price_cache = None`. -/
def clear_cache (_st : Option Frames) : Option Frames :=
  none

/-- A trade row as built by `load_trades` (lines 46-52). -/
structure Trade where
  date : Date
  ticker : String
  price : Int
  quantity : Int
  direction : String
deriving DecidableEq, Repr

/-- Lines 128-131: the per-symbol loop of `validate_data_integrity` —
false as soon as a tracked symbol is absent from the panel or its frame
is empty, true when every tracked symbol passes. -/
def checkSymbols (pd : Frames) : List String → Bool
  | [] => true
  | s :: rest =>
      match dictFind? pd s with
      | none => false
      | some df => if df.emptyb then false else checkSymbols pd rest

/-- Lines 115-138, `validate_data_integrity`: loads trades (the outcome
of `load_trades`, an `Except` since both a missing file and a malformed
row raise), rejects an empty trade list, obtains the price panel through
the cache, and checks every tracked symbol; every raised error is caught
and reduced to `false`.  Result: (verdict, new cache state, fetcher call
trace). -/
def validate_data_integrity (loadT : Except Err (List Trade))
    (fetch : String → Except Err DataFrame) (tracked : List String)
    (st : Option Frames) : Bool × Option Frames × List String :=
  match loadT with
  | .error _ => (false, st, [])
  | .ok trades =>
      if trades.isEmpty then (false, st, [])
      else
        match get_price_history fetch st tracked with
        | (.error _, st', calls) => (false, st', calls)
        | (.ok pd, st', calls) => (checkSymbols pd tracked, st', calls)

/-! ### Helper lemmas -/

theorem fetchLoop_calls_of_ok (fetch : String → Except Err DataFrame) :
    ∀ (syms : List String) (acc : Frames),
      (∀ s ∈ syms, ∃ df, fetch s = .ok df) →
      (fetchLoop fetch syms acc).2 = syms := by
  intro syms
  induction syms with
  | nil => intro acc _; rfl
  | cons s rest ih =>
      intro acc h
      obtain ⟨df, hdf⟩ := h s (by simp)
      simp only [fetchLoop, hdf]
      have := ih (dictInsert acc s (collapse df)) (fun t ht => h t (by simp [ht]))
      simp [this]

theorem get_price_history_calls_none (fetch : String → Except Err DataFrame)
    (syms : List String) :
    (get_price_history fetch none syms).2.2 = (fetchLoop fetch syms []).2 := by
  simp only [get_price_history]
  rcases hfl : fetchLoop fetch syms [] with ⟨res, tr⟩
  cases res <;> simp

theorem ffillAux_map_fst (last : Option Value) :
    ∀ l : List (Date × Option Value),
      (ffillAux last l).map Prod.fst = l.map Prod.fst := by
  intro l
  induction l generalizing last with
  | nil => rfl
  | cons r rest ih =>
      rcases r with ⟨d, v⟩
      cases v <;> simp [ffillAux, ih]

theorem completeDates_sorted (frames : Frames) :
    List.Sorted (· < ·) (completeDates frames) := by
  have hperm := List.perm_insertionSort (· ≤ ·) (allDates frames).dedup
  have hsorted := List.sorted_insertionSort (· ≤ ·) (allDates frames).dedup
  have hnodup : (completeDates frames).Nodup :=
    hperm.nodup_iff.mpr (List.nodup_dedup _)
  exact hsorted.lt_of_le hnodup

theorem mem_completeDates (frames : Frames) (d : Date) :
    d ∈ completeDates frames ↔ ∃ p ∈ frames, d ∈ p.2.data.map Prod.fst := by
  unfold completeDates allDates
  rw [(List.perm_insertionSort (· ≤ ·) _).mem_iff, List.mem_dedup,
    List.mem_flatMap]

/-! ### Claims -/

/-- C1: for every non-empty input mapping, alignment keeps the symbols
(in order), gives every symbol a series whose date index is exactly the
shared complete calendar, and that calendar is the strictly sorted
(hence deduplicated) union of all native dates of all input series. -/
theorem c1_union_calendar (frames : Frames) (h : frames ≠ []) :
    (alignFrames frames).map Prod.fst = frames.map Prod.fst ∧
    (∀ p ∈ alignFrames frames,
      p.2.data.map Prod.fst = completeDates frames) ∧
    List.Sorted (· < ·) (completeDates frames) ∧
    (∀ d, d ∈ completeDates frames ↔
      ∃ p ∈ frames, d ∈ p.2.data.map Prod.fst) := by
  refine ⟨?_, ?_, completeDates_sorted frames, fun d => mem_completeDates frames d⟩
  · simp [alignFrames, h]
  · intro p hp
    simp only [alignFrames, if_neg h, List.mem_map] at hp
    obtain ⟨q, -, rfl⟩ := hp
    simp [DataFrame.ffill, ffillAux_map_fst, DataFrame.reindex,
      List.map_map, Function.comp_def]

/-- C1 witness: two concrete overlapping series; the union calendar is
`[1, 2, 3]` and both aligned series carry it. -/
theorem c1_union_calendar_witness :
    ([("A", (⟨.flat ["Close"], [(1, some 10), (3, some 30)]⟩ : DataFrame)),
      ("B", ⟨.flat ["Close"], [(2, some 20)]⟩)] ≠ ([] : Frames)) ∧
    ((alignFrames [("A", ⟨.flat ["Close"], [(1, some 10), (3, some 30)]⟩),
        ("B", ⟨.flat ["Close"], [(2, some 20)]⟩)]).map Prod.fst
        = [("A", (⟨.flat ["Close"], [(1, some 10), (3, some 30)]⟩ : DataFrame)),
           ("B", ⟨.flat ["Close"], [(2, some 20)]⟩)].map Prod.fst ∧
      (∀ p ∈ alignFrames [("A", ⟨.flat ["Close"], [(1, some 10), (3, some 30)]⟩),
          ("B", ⟨.flat ["Close"], [(2, some 20)]⟩)],
        p.2.data.map Prod.fst
          = completeDates [("A", ⟨.flat ["Close"], [(1, some 10), (3, some 30)]⟩),
              ("B", ⟨.flat ["Close"], [(2, some 20)]⟩)]) ∧
      List.Sorted (· < ·)
        (completeDates [("A", ⟨.flat ["Close"], [(1, some 10), (3, some 30)]⟩),
          ("B", ⟨.flat ["Close"], [(2, some 20)]⟩)]) ∧
      (∀ d, d ∈ completeDates [("A", ⟨.flat ["Close"], [(1, some 10), (3, some 30)]⟩),
          ("B", ⟨.flat ["Close"], [(2, some 20)]⟩)] ↔
        ∃ p ∈ [("A", (⟨.flat ["Close"], [(1, some 10), (3, some 30)]⟩ : DataFrame)),
            ("B", ⟨.flat ["Close"], [(2, some 20)]⟩)],
          d ∈ p.2.data.map Prod.fst)) :=
  ⟨by decide, c1_union_calendar _ (by decide)⟩

theorem ffillAux_all_none (cd : List Date) :
    ffillAux none (cd.map (fun d => (d, (none : Option Value))))
      = cd.map (fun d => (d, (none : Option Value))) := by
  induction cd with
  | nil => rfl
  | cons d rest ih => simp [ffillAux, ih]

theorem allDates_filter_nonempty :
    ∀ fs : Frames,
      allDates (fs.filter (fun p => !p.2.data.isEmpty)) = allDates fs := by
  intro fs
  induction fs with
  | nil => rfl
  | cons q rest ih =>
      simp only [allDates] at ih ⊢
      cases hq : q.2.data.isEmpty with
      | true =>
          rw [List.filter_cons_of_neg (by simp [hq]), ih, List.flatMap_cons,
            List.isEmpty_iff.mp hq]
          rfl
      | false =>
          rw [List.filter_cons_of_pos (by simp [hq]), List.flatMap_cons,
            List.flatMap_cons, ih]

/-- C9: for every input containing a symbol whose fetched series is
entirely empty — at any position — that series contributes no dates:
the union calendar equals the one derived from the non-empty (other)
frames; and the symbol's aligned entry is all-missing on that calendar;
alignment (a total function here) does not fail. -/
theorem c9_empty_series (frames : Frames) (s₀ : String) (df₀ : DataFrame)
    (hmem : (s₀, df₀) ∈ frames) (h : df₀.data = []) :
    completeDates frames =
      completeDates (frames.filter (fun p => !p.2.data.isEmpty)) ∧
    (s₀, (⟨df₀.cols, (completeDates frames).map
      (fun d => (d, (none : Option Value)))⟩ : DataFrame)) ∈
      alignFrames frames := by
  constructor
  · unfold completeDates
    rw [allDates_filter_nonempty]
  · have hne : frames ≠ [] := List.ne_nil_of_mem hmem
    have heq : (df₀.reindex (completeDates frames)).ffill =
        ⟨df₀.cols, (completeDates frames).map
          (fun d => (d, (none : Option Value)))⟩ := by
      simp [DataFrame.reindex, DataFrame.ffill, h, dlookup,
        ffillAux_all_none]
    simp only [alignFrames, if_neg hne]
    rw [← heq]
    exact List.mem_map_of_mem _ hmem

/-- C9 witness: an empty series for `"A"` in non-head position next to a
one-day series for `"B"`; the calendar equals the one from the
non-empty frames and `A`'s aligned entry is all-missing on it. -/
theorem c9_empty_series_witness :
    (("A", (⟨.flat ["Close"], []⟩ : DataFrame)) ∈
      [("B", (⟨.flat ["Close"], [(2, some 20)]⟩ : DataFrame)),
       ("A", ⟨.flat ["Close"], []⟩)]) ∧
    ((⟨.flat ["Close"], []⟩ : DataFrame).data = []) ∧
    (completeDates [("B", (⟨.flat ["Close"], [(2, some 20)]⟩ : DataFrame)),
        ("A", ⟨.flat ["Close"], []⟩)]
      = completeDates
          ([("B", (⟨.flat ["Close"], [(2, some 20)]⟩ : DataFrame)),
            ("A", ⟨.flat ["Close"], []⟩)].filter
            (fun p => !p.2.data.isEmpty)) ∧
    ("A", (⟨.flat ["Close"],
        (completeDates [("B", (⟨.flat ["Close"], [(2, some 20)]⟩ : DataFrame)),
          ("A", ⟨.flat ["Close"], []⟩)]).map
          (fun d => (d, (none : Option Value)))⟩ : DataFrame)) ∈
      alignFrames [("B", (⟨.flat ["Close"], [(2, some 20)]⟩ : DataFrame)),
        ("A", ⟨.flat ["Close"], []⟩)]) :=
  ⟨by decide, rfl,
    c9_empty_series
      [("B", ⟨.flat ["Close"], [(2, some 20)]⟩), ("A", ⟨.flat ["Close"], []⟩)]
      "A" ⟨.flat ["Close"], []⟩ (by decide) rfl⟩

/-- C3: once a call to `get_price_history` succeeds and populates the
cache, every subsequent call — with any fetcher and any symbol list —
returns the identical stored panel, leaves the cache unchanged, and
performs no fetch at all. -/
theorem c3_cache_idempotent (fetch fetch₂ : String → Except Err DataFrame)
    (st st' : Option Frames) (syms syms₂ : List String) (p : Frames)
    (calls : List String)
    (h : get_price_history fetch st syms = (.ok p, st', calls)) :
    get_price_history fetch₂ st' syms₂ = (.ok p, st', []) := by
  cases st with
  | some q =>
      simp only [get_price_history, Prod.mk.injEq, Except.ok.injEq] at h
      obtain ⟨h1, h2, -⟩ := h
      subst h1; subst h2
      rfl
  | none =>
      simp only [get_price_history] at h
      rcases hfl : fetchLoop fetch syms [] with ⟨res, tr⟩
      rw [hfl] at h
      cases res with
      | error e => simp at h
      | ok frames =>
          simp only [Prod.mk.injEq, Except.ok.injEq] at h
          obtain ⟨h1, h2, -⟩ := h
          subst h1; subst h2
          rfl

/-- C3 witness: a concrete successful first call, then a second call
with a different fetcher and symbol list hits the cache. -/
theorem c3_cache_idempotent_witness :
    get_price_history (fun _ => Except.error "down")
      (get_price_history (fun _ => Except.ok ⟨.flat ["Close"], [(0, some 5)]⟩)
        none ["A"]).2.1 ["B", "C"]
      = (.ok [("A", ⟨.flat ["Close"], [(0, some 5)]⟩)],
         some [("A", ⟨.flat ["Close"], [(0, some 5)]⟩)], []) :=
  c3_cache_idempotent (fun _ => Except.ok ⟨.flat ["Close"], [(0, some 5)]⟩)
    (fun _ => Except.error "down") none _ ["A"] ["B", "C"] _ _ rfl

/-- C5: when `get_price_history` propagates an error, the cache is left
exactly in its prior state; moreover errors only arise on a cold cache
(the prior state was `none`), so a later call re-enters the full
fetch-and-align path. -/
theorem c5_error_leaves_cache (fetch : String → Except Err DataFrame)
    (st st' : Option Frames) (syms : List String) (e : Err)
    (calls : List String)
    (h : get_price_history fetch st syms = (.error e, st', calls)) :
    st' = st ∧ st = none := by
  cases st with
  | some q => simp [get_price_history] at h
  | none =>
      refine ⟨?_, rfl⟩
      simp only [get_price_history] at h
      rcases hfl : fetchLoop fetch syms [] with ⟨res, tr⟩
      rw [hfl] at h
      cases res with
      | error e' =>
          simp only [Prod.mk.injEq, Except.error.injEq] at h
          exact h.2.1.symm
      | ok frames => simp at h

/-- C5 witness: a concrete failing fetch from an empty cache leaves the
cache empty. -/
theorem c5_error_leaves_cache_witness :
    (get_price_history (fun _ => Except.error "boom") none ["A"]).2.1 = none ∧
    (none : Option Frames) = none :=
  c5_error_leaves_cache (fun _ => Except.error "boom") none
    (get_price_history (fun _ => Except.error "boom") none ["A"]).2.1
    ["A"] "boom" ["A"] rfl

/-- C6 counterexample: the claim "a multi-level column structure is
collapsed to exactly one canonical price field" is false — a MultiIndex
frame with two price fields is flattened to two columns, not one. -/
theorem c6_counterexample :
    ¬ (∀ df : DataFrame, df.cols.isMulti = true →
        ((collapse df).cols.length = 1)) := by
  intro h
  have := h ⟨.multi [("Close", "AAPL"), ("Open", "AAPL")], [(0, some 1)]⟩ rfl
  simp [collapse, ColIndex.length] at this

/-- C6 amended: before alignment the core flattens a two-level
(MultiIndex) column structure to a single level by dropping the second
level, retaining every field (the column count is unchanged); flat
columns pass through untouched; the download loop stores exactly the
collapsed frame. -/
theorem c6_amended_collapse (names : List (String × String))
    (flatNames : List String) (data : List (Date × Option Value))
    (df : DataFrame) (s : String) :
    collapse ⟨.multi names, data⟩ = ⟨.flat (names.map Prod.fst), data⟩ ∧
    collapse ⟨.flat flatNames, data⟩ = ⟨.flat flatNames, data⟩ ∧
    (collapse ⟨.multi names, data⟩).cols.length = names.length ∧
    (fetchLoop (fun _ => Except.ok df) [s] []).1 = .ok [(s, collapse df)] := by
  refine ⟨rfl, rfl, by simp [collapse, ColIndex.length], ?_⟩
  simp [fetchLoop, dictInsert]

/-- C7: `clear_cache` resets the cache to empty unconditionally and
idempotently, and a call to `get_price_history` right after a clear
invokes the fetcher exactly once per requested symbol, in request
order, whenever every fetch succeeds. -/
theorem c7_clear_cache (fetch : String → Except Err DataFrame)
    (st : Option Frames) (symbols : List String) :
    clear_cache st = none ∧
    clear_cache (clear_cache st) = clear_cache st ∧
    ((∀ s ∈ symbols, ∃ df, fetch s = Except.ok df) →
      (get_price_history fetch (clear_cache st) symbols).2.2 = symbols) := by
  refine ⟨rfl, rfl, fun h => ?_⟩
  rw [clear_cache, get_price_history_calls_none]
  exact fetchLoop_calls_of_ok fetch symbols [] h

/-- C7 witness: after clearing a populated cache, a concrete two-symbol
request fetches exactly `["A", "B"]`. -/
theorem c7_clear_cache_witness :
    (get_price_history (fun _ => Except.ok ⟨.flat ["Close"], [(0, some 1)]⟩)
      (clear_cache (some [])) ["A", "B"]).2.2 = ["A", "B"] :=
  (c7_clear_cache (fun _ => Except.ok ⟨.flat ["Close"], [(0, some 1)]⟩)
    (some []) ["A", "B"]).2.2 (fun _ _ => ⟨_, rfl⟩)

theorem checkSymbols_true_iff (pd : Frames) :
    ∀ tracked : List String,
      checkSymbols pd tracked = true ↔
        ∀ s ∈ tracked, ∃ df, dictFind? pd s = some df ∧ df.emptyb = false := by
  intro tracked
  induction tracked with
  | nil => simp [checkSymbols]
  | cons s rest ih =>
      simp only [checkSymbols]
      cases hf : dictFind? pd s with
      | none => simp [hf]
      | some df =>
          cases he : df.emptyb with
          | true => simp [hf, he]
          | false => simp [hf, he, ih]

theorem checkSymbols_false_of_missing (pd : Frames) (s : String)
    (tracked : List String) (hs : s ∈ tracked) (hf : dictFind? pd s = none) :
    checkSymbols pd tracked = false := by
  induction tracked with
  | nil => cases hs
  | cons t rest ih =>
      rcases List.mem_cons.mp hs with rfl | hmem
      · simp [checkSymbols, hf]
      · simp only [checkSymbols]
        cases hft : dictFind? pd t with
        | none => rfl
        | some df =>
            cases he : df.emptyb with
            | true => simp [he]
            | false => simp [he, ih hmem]

/-- C4: the validator is total (returns a boolean for every outcome of
the collaborators) and returns `true` exactly when the trade source
loads to a non-empty trade list, the price history call succeeds, and
every tracked symbol is present in the panel with a non-empty frame;
every failure situation yields `false`. -/
theorem c4_validator (loadT : Except Err (List Trade))
    (fetch : String → Except Err DataFrame) (tracked : List String)
    (st : Option Frames) :
    (validate_data_integrity loadT fetch tracked st).1 = true ↔
      (∃ trades, loadT = Except.ok trades ∧ trades ≠ []) ∧
      (∃ pd st' calls,
        get_price_history fetch st tracked = (.ok pd, st', calls) ∧
        ∀ s ∈ tracked, ∃ df, dictFind? pd s = some df ∧ df.emptyb = false) := by
  cases loadT with
  | error e => simp [validate_data_integrity]
  | ok trades =>
      by_cases hemp : trades.isEmpty
      · simp only [validate_data_integrity, if_pos hemp]
        constructor
        · intro h; cases h
        · rintro ⟨⟨trades', heq, hne⟩, -⟩
          injection heq with heq
          exact absurd (List.isEmpty_iff.mp (heq ▸ hemp)) hne
      · simp only [validate_data_integrity, if_neg hemp]
        rcases hg : get_price_history fetch st tracked with ⟨res, st', calls⟩
        cases res with
        | error e =>
            simp only
            constructor
            · intro h; cases h
            · rintro ⟨-, pd, st'', calls', hg', -⟩
              simp at hg'
        | ok pd =>
            simp only
            rw [checkSymbols_true_iff]
            constructor
            · intro h
              exact ⟨⟨trades, rfl, fun hn => by simp [hn] at hemp⟩,
                pd, st', calls, rfl, h⟩
            · rintro ⟨-, pd', st'', calls', hg', hall⟩
              simp only [Prod.mk.injEq, Except.ok.injEq] at hg'
              exact hg'.1 ▸ hall

/-- C10: when the cache already holds a panel that lacks a tracked
symbol (for instance after an earlier call with a different or empty
symbol list), the validator returns `false` without invoking the
fetcher and leaves the cache unchanged — so it keeps returning `false`
until the cache is cleared. -/
theorem c10_stale_cache (loadT : Except Err (List Trade))
    (fetch : String → Except Err DataFrame) (tracked : List String)
    (p : Frames) (trades : List Trade) (s : String)
    (h1 : loadT = Except.ok trades) (h2 : trades ≠ [])
    (h3 : s ∈ tracked) (h4 : dictFind? p s = none) :
    validate_data_integrity loadT fetch tracked (some p) =
      (false, some p, []) := by
  subst h1
  simp only [validate_data_integrity,
    if_neg (fun h => h2 (List.isEmpty_iff.mp h)), get_price_history]
  simp [checkSymbols_false_of_missing p s tracked h3 h4]

/-- C10 witness: a cache populated with the empty panel (as an earlier
empty-symbol call leaves it) makes the validator reject tracked symbol
`"A"` with no fetch, leaving the cache as it was. -/
theorem c10_stale_cache_witness :
    ([(⟨0, "A", 1, 1, "Buy"⟩ : Trade)] ≠ []) ∧
    ("A" ∈ ["A"]) ∧ (dictFind? [] "A" = none) ∧
    validate_data_integrity
      (Except.ok [(⟨0, "A", 1, 1, "Buy"⟩ : Trade)] : Except Err (List Trade))
      (fun _ => Except.error "down") ["A"] (some []) = (false, some [], []) :=
  ⟨by decide, by decide, rfl,
    c10_stale_cache _ (fun _ => Except.error "down") ["A"] [] _ "A"
      rfl (by decide) (by decide) rfl⟩

/-- C8: a cold-cache call with zero symbols returns the empty panel
(and caches it) without error. -/
theorem c8_empty_symbols (fetch : String → Except Err DataFrame) :
    get_price_history fetch none [] = (.ok [], some [], []) := by
  simp [get_price_history, fetchLoop, alignFrames]

/-- Modelled from the spec's forward-fill law (the claim side of the
refinement): the value at the latest native date strictly below `lo`,
`none` when every native date is `≥ lo` or the native row there is
missing.  `lastValLt rows (d + 1)` is "the value at the latest native
date ≤ d". -/
def lastValLt (rows : List (Date × Option Value)) (lo : Nat) : Option Value :=
  ((rows.filter (fun r => decide (r.1 < lo))).getLast?).bind Prod.snd

theorem lastValLt_zero (rows : List (Date × Option Value)) :
    lastValLt rows 0 = none := by
  unfold lastValLt
  have h : rows.filter (fun r => decide (r.1 < 0)) = [] := by
    rw [List.filter_eq_nil_iff]; intro a _; simp
  rw [h]; rfl

theorem getLast?_filter_le (d : Date) :
    ∀ rows : List (Date × Option Value),
      List.Sorted (· < ·) (rows.map Prod.fst) →
      ∀ r ∈ rows, r.1 ≤ d →
      (∀ r' ∈ rows, r'.1 ≤ d → r'.1 ≤ r.1) →
      (rows.filter (fun x => decide (x.1 < d + 1))).getLast? = some r := by
  intro rows
  induction rows with
  | nil => intro _ r hr; cases hr
  | cons r₀ rest ih =>
      intro hs r hr hrd hmax
      rw [List.map_cons, List.sorted_cons] at hs
      obtain ⟨hbound, hrest⟩ := hs
      rcases List.mem_cons.mp hr with rfl | hmem
      · have hnil : rest.filter (fun x => decide (x.1 < d + 1)) = [] := by
          rw [List.filter_eq_nil_iff]
          intro x hx
          simp only [decide_eq_true_eq, Nat.lt_succ_iff]
          intro hxd
          exact absurd (hmax x (List.mem_cons_of_mem _ hx) hxd)
            (not_le.mpr (hbound x.1 (List.mem_map_of_mem Prod.fst hx)))
        rw [List.filter_cons_of_pos (by simpa [Nat.lt_succ_iff] using hrd),
          hnil]
        rfl
      · have hlt : r₀.1 < r.1 := hbound r.1 (List.mem_map_of_mem Prod.fst hmem)
        have hrec := ih hrest r hmem hrd
          (fun r' hr' hd' => hmax r' (List.mem_cons_of_mem _ hr') hd')
        rw [List.filter_cons_of_pos
          (by simpa [Nat.lt_succ_iff] using le_of_lt (lt_of_lt_of_le hlt hrd))]
        cases hfr : rest.filter (fun x => decide (x.1 < d + 1)) with
        | nil => rw [hfr] at hrec; cases hrec
        | cons a l => rw [hfr] at hrec; rw [List.getLast?_cons_cons]; exact hrec

theorem dlookup_eq_of_mem :
    ∀ rows : List (Date × Option Value),
      List.Sorted (· < ·) (rows.map Prod.fst) →
      ∀ r ∈ rows, dlookup rows r.1 = r.2 := by
  intro rows
  induction rows with
  | nil => intro _ r hr; cases hr
  | cons r₀ rest ih =>
      intro hs r hr
      rw [List.map_cons, List.sorted_cons] at hs
      obtain ⟨hbound, hrest⟩ := hs
      rcases List.mem_cons.mp hr with rfl | hmem
      · rw [dlookup, List.find?_cons_of_pos _ (by simp)]; rfl
      · have hlt : r₀.1 < r.1 := hbound r.1 (List.mem_map_of_mem Prod.fst hmem)
        rw [dlookup, List.find?_cons_of_neg _ (by simp [Nat.ne_of_lt hlt])]
        exact ih hrest r hmem

theorem dlookup_some_mem (rows : List (Date × Option Value)) (d : Date)
    (x : Value) (h : dlookup rows d = some x) : (d, some x) ∈ rows := by
  unfold dlookup at h
  cases hf : rows.find? (fun r => r.1 == d) with
  | none => rw [hf] at h; cases h
  | some r =>
      rw [hf] at h
      have h1 := List.find?_some hf
      have h2 := List.mem_of_find?_eq_some hf
      rcases r with ⟨r1, r2⟩
      simp only [beq_iff_eq] at h1
      simp only [Option.some_bind] at h
      subst h1
      subst h
      exact h2

theorem lastValLt_eq_of_max (rows : List (Date × Option Value))
    (hs : List.Sorted (· < ·) (rows.map Prod.fst)) (d : Date)
    (r : Date × Option Value) (hr : r ∈ rows) (hrd : r.1 ≤ d)
    (hmax : ∀ r' ∈ rows, r'.1 ≤ d → r'.1 ≤ r.1) :
    lastValLt rows (d + 1) = r.2 := by
  unfold lastValLt
  rw [getLast?_filter_le d rows hs r hr hrd hmax]
  rfl

theorem lastValLt_eq_none (rows : List (Date × Option Value)) (d : Date)
    (h : ∀ r ∈ rows, d < r.1) : lastValLt rows (d + 1) = none := by
  unfold lastValLt
  have hnil : rows.filter (fun r => decide (r.1 < d + 1)) = [] := by
    rw [List.filter_eq_nil_iff]
    intro x hx
    simp only [decide_eq_true_eq, Nat.lt_succ_iff]
    exact not_le.mpr (h x hx)
  rw [hnil]; rfl

theorem lastValLt_congr (rows : List (Date × Option Value)) (lo d : Nat)
    (hlo : lo ≤ d) (hnot : d ∉ rows.map Prod.fst)
    (hgap : ∀ r ∈ rows, r.1 < lo ∨ d ≤ r.1) :
    lastValLt rows (d + 1) = lastValLt rows lo := by
  unfold lastValLt
  rw [List.filter_congr (fun x hx => ?_)]
  rcases hgap x hx with hlt | hge
  · have h1 : x.1 < d + 1 := Nat.lt_succ_of_le (le_trans (le_of_lt hlt) hlo)
    simp [h1, hlt]
  · have hne : x.1 ≠ d := fun he => hnot (he ▸ List.mem_map_of_mem Prod.fst hx)
    have h1 : ¬ x.1 < d + 1 := by
      rw [Nat.lt_succ_iff]; exact fun hle => hne (le_antisymm hle hge)
    have h2 : ¬ x.1 < lo :=
      not_lt.mpr (le_trans hlo (lt_of_le_of_ne hge (Ne.symm hne)).le)
    simp [h1, h2]

theorem ffill_reindex_eq (rows : List (Date × Option Value))
    (hs : List.Sorted (· < ·) (rows.map Prod.fst))
    (hv : ∀ r ∈ rows, r.2.isSome) :
    ∀ (cd : List Date) (lo : Nat), List.Sorted (· < ·) cd →
      (∀ d ∈ cd, lo ≤ d) →
      (∀ r ∈ rows, r.1 < lo ∨ r.1 ∈ cd) →
      ffillAux (lastValLt rows lo) (cd.map (fun d => (d, dlookup rows d)))
        = cd.map (fun d => (d, lastValLt rows (d + 1))) := by
  intro cd
  induction cd with
  | nil => intro lo _ _ _; rfl
  | cons d rest ih =>
      intro lo hsort hge hcov
      rw [List.sorted_cons] at hsort
      obtain ⟨hd, hrest⟩ := hsort
      have hlo : lo ≤ d := hge d (List.mem_cons_self d rest)
      have hge' : ∀ d' ∈ rest, d + 1 ≤ d' := fun d' hd' =>
        Nat.succ_le_of_lt (hd d' hd')
      have hcov' : ∀ r ∈ rows, r.1 < d + 1 ∨ r.1 ∈ rest := by
        intro r hr
        rcases hcov r hr with hlt | hmem
        · exact Or.inl (Nat.lt_succ_of_le (le_trans (le_of_lt hlt) hlo))
        · rcases List.mem_cons.mp hmem with he | hm
          · exact Or.inl (he ▸ Nat.lt_succ_self d)
          · exact Or.inr hm
      have htail := ih (d + 1) hrest hge' hcov'
      simp only [List.map_cons, ffillAux]
      cases hdl : dlookup rows d with
      | some x =>
          have hmem := dlookup_some_mem rows d x hdl
          have hval : lastValLt rows (d + 1) = some x :=
            lastValLt_eq_of_max rows hs d (d, some x) hmem (le_refl d)
              (fun r' _ h => h)
          show (d, some x) ::
              ffillAux (some x) (rest.map (fun d' => (d', dlookup rows d'))) = _
          rw [hval, ← hval, htail]
      | none =>
          have hnot : d ∉ rows.map Prod.fst := by
            intro hm
            obtain ⟨r, hr, hr1⟩ := List.mem_map.mp hm
            have hdv := dlookup_eq_of_mem rows hs r hr
            rw [hr1] at hdv
            rw [hdv] at hdl
            exact absurd (hdl ▸ hv r hr) (by simp)
          have hgap : ∀ r ∈ rows, r.1 < lo ∨ d ≤ r.1 := by
            intro r hr
            rcases hcov r hr with hlt | hmem
            · exact Or.inl hlt
            · rcases List.mem_cons.mp hmem with he | hm
              · exact Or.inr (le_of_eq he.symm)
              · exact Or.inr (le_of_lt (hd r.1 hm))
          have hcongr : lastValLt rows (d + 1) = lastValLt rows lo :=
            lastValLt_congr rows lo d hlo hnot hgap
          show (d, lastValLt rows lo) ::
              ffillAux (lastValLt rows lo)
                (rest.map (fun d' => (d', dlookup rows d'))) = _
          rw [← hcongr, htail]

/-- C2: for a symbol whose native series has strictly increasing dates
and no missing native rows, its aligned entry carries, at every calendar
date `d`, exactly `lastValLt data (d + 1)` — and that spec-side quantity
is the exact copy of the value at the latest native date `≤ d` whenever
such a date exists (no interpolation), and `none` (missing) for dates
before the first native observation (no backward fill). -/
theorem c2_forward_fill (frames : Frames) (s : String) (df : DataFrame)
    (hmem : (s, df) ∈ frames)
    (hs : List.Sorted (· < ·) (df.data.map Prod.fst))
    (hv : ∀ r ∈ df.data, r.2.isSome) :
    ((s, (⟨df.cols, (completeDates frames).map
        (fun d => (d, lastValLt df.data (d + 1)))⟩ : DataFrame))
      ∈ alignFrames frames) ∧
    (∀ (d : Date), ∀ r ∈ df.data, r.1 ≤ d →
      (∀ r' ∈ df.data, r'.1 ≤ d → r'.1 ≤ r.1) →
      lastValLt df.data (d + 1) = r.2) ∧
    (∀ d : Date, (∀ r ∈ df.data, d < r.1) →
      lastValLt df.data (d + 1) = none) := by
  refine ⟨?_,
    fun d r hr hrd hmax => lastValLt_eq_of_max df.data hs d r hr hrd hmax,
    fun d h => lastValLt_eq_none df.data d h⟩
  have hne : frames ≠ [] := List.ne_nil_of_mem hmem
  have hcov : ∀ r ∈ df.data, r.1 ∈ completeDates frames := fun r hr =>
    (mem_completeDates frames r.1).mpr
      ⟨(s, df), hmem, List.mem_map_of_mem Prod.fst hr⟩
  have hfill := ffill_reindex_eq df.data hs hv (completeDates frames) 0
    (completeDates_sorted frames) (fun d _ => Nat.zero_le d)
    (fun r hr => Or.inr (hcov r hr))
  rw [lastValLt_zero] at hfill
  have heq : (df.reindex (completeDates frames)).ffill =
      ⟨df.cols, (completeDates frames).map
        (fun d => (d, lastValLt df.data (d + 1)))⟩ := by
    simp only [DataFrame.reindex, DataFrame.ffill]
    rw [hfill]
  simp only [alignFrames, if_neg hne]
  rw [← heq]
  exact List.mem_map_of_mem _ hmem

/-- C2 witness: symbol `"B"` observed only on day 2, aligned against a
second symbol covering days 1 and 3: day 1 stays missing (no backward
fill), day 2 is the native value, day 3 is the day-2 value copied
forward. -/
theorem c2_forward_fill_witness :
    (("B", (⟨.flat ["Close"], [(2, some 20)]⟩ : DataFrame)) ∈
      [("A", (⟨.flat ["Close"], [(1, some 10), (3, some 30)]⟩ : DataFrame)),
       ("B", ⟨.flat ["Close"], [(2, some 20)]⟩)]) ∧
    List.Sorted (· < ·)
      ((⟨.flat ["Close"], [(2, some 20)]⟩ : DataFrame).data.map Prod.fst) ∧
    (∀ r ∈ (⟨.flat ["Close"], [(2, some 20)]⟩ : DataFrame).data,
      r.2.isSome) ∧
    ((("B", (⟨.flat ["Close"],
        (completeDates
          [("A", (⟨.flat ["Close"], [(1, some 10), (3, some 30)]⟩ : DataFrame)),
           ("B", ⟨.flat ["Close"], [(2, some 20)]⟩)]).map
          (fun d => (d, lastValLt [(2, some 20)] (d + 1)))⟩ : DataFrame))
        ∈ alignFrames
          [("A", (⟨.flat ["Close"], [(1, some 10), (3, some 30)]⟩ : DataFrame)),
           ("B", ⟨.flat ["Close"], [(2, some 20)]⟩)]) ∧
      (∀ (d : Date), ∀ r ∈ [((2 : Date), some (20 : Value))], r.1 ≤ d →
        (∀ r' ∈ [((2 : Date), some (20 : Value))], r'.1 ≤ d → r'.1 ≤ r.1) →
        lastValLt [(2, some 20)] (d + 1) = r.2) ∧
      (∀ d : Date, (∀ r ∈ [((2 : Date), some (20 : Value))], d < r.1) →
        lastValLt [(2, some 20)] (d + 1) = none)) :=
  ⟨by decide, by decide, by decide,
    c2_forward_fill
      [("A", ⟨.flat ["Close"], [(1, some 10), (3, some 30)]⟩),
       ("B", ⟨.flat ["Close"], [(2, some 20)]⟩)]
      "B" ⟨.flat ["Close"], [(2, some 20)]⟩
      (by decide) (by decide) (by decide)⟩

end PortfolioTracker
